import Mathlib

/-
Shallow embedding of analithops (src/analithops/utils.py).

The repository has two functions of interest:
  * `data_input(data_path, forbidden=(), map_reduce=True)` — walks the
    directory tree below `data_path` with the glob pattern `**/[0-9]*`,
    skips matched entries whose name is in `forbidden`, and for each
    remaining entry reads every `**/output-*.jsonl` file below it,
    appending one record per JSON line enriched with `nlambdas`
    (`int(name)` of the matched entry), `nrun` (the enumeration index of
    the file within that entry) and `is_worker = True`; when `map_reduce`
    is set, after each file it executes `full[-1]['is_worker'] = False`.
  * `compute_mean_runtime_per_nlambdas(df)` — filters reducer rows,
    falls back to the whole frame when there are none, group-bys
    `(nlambdas, nrun)` with `maintain_order=True` to take the minimum
    `host_submit_tstamp` and the maximum `host_result_done_tstamp`,
    subtracts the two aggregate columns positionally, and finally
    group-bys `nlambdas`, takes the mean and sorts ascending.

Modelling choices:
  * The filesystem is a finite tree; a JSON line is modelled by the two
    timestamp fields the analysis reads (`host_submit_tstamp`,
    `host_result_done_tstamp`), as integers.  The external `formats`
    schema module is not part of the repository sources; the dataframe is
    modelled as the list of its rows.
  * Python `int(name)` on a name matched by `[0-9]*` is modelled for
    ASCII digit strings with single underscores between digit groups
    (Python's grouped-integer literals); other matched names fail to
    parse, mirroring `ValueError`.
  * Errors (`IndexError` from `full[-1]` on an empty list, `ValueError`
    from `int`, `IsADirectoryError` from `open` on a directory) make the
    loader return `Except.error`.
  * Polars series subtraction broadcasts a length-one series and raises
    on any other length mismatch; `with_columns` likewise; the aggregator
    returns `none` in precisely those error situations.
-/

namespace Analithops

/-- One parsed JSON line, restricted to the fields the program reads. -/
structure RawRecord where
  host_submit_tstamp : Int
  host_result_done_tstamp : Int
deriving DecidableEq, Repr

/-- One row of the loaded dataframe. -/
structure Record where
  host_submit_tstamp : Int
  host_result_done_tstamp : Int
  nlambdas : Nat
  nrun : Nat
  is_worker : Bool
deriving DecidableEq, Repr

/-- A filesystem tree: files carry their JSONL lines, directories their
children (in `os.scandir` order). -/
inductive FSTree where
  | file (fname : String) (lines : List RawRecord)
  | dir (dname : String) (children : List FSTree)

/-- Name of a filesystem entry (`path.name`). -/
def FSTree.fsname : FSTree → String
  | .file n _ => n
  | .dir n _ => n

/-- Lines of a file; a directory has none. -/
def FSTree.linesOf : FSTree → List RawRecord
  | .file _ ls => ls
  | .dir _ _ => []

/-- Whether the entry is a directory. -/
def FSTree.isDir : FSTree → Bool
  | .file _ _ => false
  | .dir _ _ => true

mutual
/-- Pathlib `path.glob('**/<p>')`: every descendant entry (at any depth,
files and directories alike) whose name satisfies `p`, in pathlib's
order: matches among the children of each directory, directories walked
depth-first in pre-order.  On a non-directory it yields nothing. -/
def glob : FSTree → (String → Bool) → List FSTree
  | .file _ _, _ => []
  | .dir _ cs, p => cs.filter (fun c => p c.fsname) ++ globChildren cs p

/-- Matches of `p` found below each element of a list of entries. -/
def globChildren : List FSTree → (String → Bool) → List FSTree
  | [], _ => []
  | c :: cs, p => glob c p ++ globChildren cs p
end

/-- Whether a name is matched by the glob pattern `[0-9]*`: it starts
with an ASCII digit. -/
def startsWithDigit (s : String) : Bool :=
  match s.data with
  | [] => false
  | c :: _ => c.isDigit

/-- Boolean test that one character list is an initial segment of
another. -/
def listLeads : List Char → List Char → Bool
  | [], _ => true
  | _ :: _, [] => false
  | p :: ps, c :: cs => p = c && listLeads ps cs

/-- Whether a name is matched by the glob pattern `output-*.jsonl`. -/
def isOutputJsonl (s : String) : Bool :=
  listLeads "output-".data s.data &&
    listLeads ".jsonl".data.reverse s.data.reverse &&
    decide (13 ≤ s.data.length)

/-- Groups of characters delimited by underscores. -/
def splitU : List Char → List (List Char)
  | [] => [[]]
  | c :: cs =>
    if c = '_' then [] :: splitU cs
    else
      match splitU cs with
      | [] => [[c]]
      | g :: gs => (c :: g) :: gs

/-- Numeric value of a list of ASCII digits. -/
def digitsToNat (l : List Char) : Nat :=
  l.foldl (fun a c => a * 10 + (c.toNat - 48)) 0

/-- Python `int(name)` for a name matched by `[0-9]*`: ASCII digit
groups separated by single underscores parse to their value, everything
else raises `ValueError`. -/
def pyIntParse (s : String) : Option Nat :=
  let gs := splitU s.data
  if gs.all (fun g => (!g.isEmpty) && g.all (fun c => c.isDigit)) then
    some (digitsToNat (s.data.filter (fun c => c.isDigit)))
  else none

/-- Errors the loader can raise. -/
inductive LoadError where
  | valueError (nm : String)
  | indexError
  | isADirectoryError (nm : String)
deriving DecidableEq, Repr

/-- The inner line loop of `data_input`: for each line, parse `int(name)`
(raising `ValueError` on failure) and append a record flagged as a
worker. -/
def readLines (nm : String) (i : Nat) :
    List RawRecord → List Record → Except LoadError (List Record)
  | [], full => .ok full
  | l :: ls, full =>
    match pyIntParse nm with
    | none => .error (.valueError nm)
    | some nl =>
        readLines nm i ls
          (full ++ [{ host_submit_tstamp := l.host_submit_tstamp,
                      host_result_done_tstamp := l.host_result_done_tstamp,
                      nlambdas := nl, nrun := i, is_worker := true }])

/-- The statement `full[-1]['is_worker'] = False` on a nonempty list:
replace the last record's flag. -/
def setLastFalse : List Record → List Record
  | [] => []
  | [r] => [{ r with is_worker := false }]
  | r :: s :: rs => r :: setLastFalse (s :: rs)

/-- The file loop of `data_input`: open each enumerated match of
`output-*.jsonl` (a directory raises `IsADirectoryError`), run the line
loop, and under map-reduce execute `full[-1]['is_worker'] = False`,
which raises `IndexError` when no record has been accumulated yet. -/
def processFiles (nm : String) (mr : Bool) :
    List (Nat × FSTree) → List Record → Except LoadError (List Record)
  | [], full => .ok full
  | (_, .dir d _) :: _, _ => .error (.isADirectoryError d)
  | (i, .file _ ls) :: rest, full =>
    match readLines nm i ls full with
    | .error e => .error e
    | .ok full1 =>
      if mr then
        match full1 with
        | [] => .error .indexError
        | _ :: _ => processFiles nm mr rest (setLastFalse full1)
      else processFiles nm mr rest full1

/-- The outer directory loop of `data_input`: skip matched entries whose
name is forbidden, otherwise process their enumerated output files. -/
def processPaths (forbidden : List String) (mr : Bool) :
    List FSTree → List Record → Except LoadError (List Record)
  | [], full => .ok full
  | p :: ps, full =>
    if p.fsname ∈ forbidden then processPaths forbidden mr ps full
    else
      match processFiles p.fsname mr ((glob p isOutputJsonl).enum) full with
      | .error e => .error e
      | .ok full1 => processPaths forbidden mr ps full1

/-- The loader `data_input(data_path, forbidden, map_reduce)`. -/
def data_input (root : FSTree) (forbidden : List String) (mr : Bool) :
    Except LoadError (List Record) :=
  processPaths forbidden mr (glob root startsWithDigit) []

/-- The `(nlambdas, nrun)` grouping key. -/
def recKey (r : Record) : Nat × Nat := (r.nlambdas, r.nrun)

/-- Group keys in order of first occurrence, as produced by a polars
`group_by` with `maintain_order=True`. -/
def firstOcc : List (Nat × Nat) → List (Nat × Nat)
  | [] => []
  | k :: ks => k :: (firstOcc ks).filter (fun k2 => k2 ≠ k)

/-- Minimum of a series; groups are never empty so the base value is
irrelevant. -/
def listMin : List Int → Int
  | [] => 0
  | x :: xs => xs.foldl min x

/-- Maximum of a series; groups are never empty so the base value is
irrelevant. -/
def listMax : List Int → Int
  | [] => 0
  | x :: xs => xs.foldl max x

/-- The reducer selection of `compute_mean_runtime_per_nlambdas`:
`rdf = df.filter(is_worker == False)`, replaced by `df` itself when the
filter result is empty. -/
def selectCompletion (df : List Record) : List Record :=
  let rdf := df.filter (fun r => r.is_worker = false)
  if rdf.isEmpty then df else rdf

/-- Per-group minimum of `host_submit_tstamp`, groups in first-occurrence
order (`group_by(['nlambdas','nrun'], maintain_order=True).agg(min)`). -/
def minSubmitByKey (df : List Record) : List Int :=
  (firstOcc (df.map recKey)).map
    (fun k => listMin ((df.filter (fun r => recKey r = k)).map
      (fun r => r.host_submit_tstamp)))

/-- Per-group maximum of `host_result_done_tstamp`, groups in
first-occurrence order. -/
def maxDoneByKey (rdf : List Record) : List Int :=
  (firstOcc (rdf.map recKey)).map
    (fun k => listMax ((rdf.filter (fun r => recKey r = k)).map
      (fun r => r.host_result_done_tstamp)))

/-- Polars series subtraction: positional when the lengths agree, a
length-one series broadcasts, any other mismatch raises. -/
def seriesSub (a b : List Int) : Option (List Int) :=
  if a.length = b.length then some (List.zipWith (fun x y => x - y) a b)
  else if a.length = 1 then some (b.map (fun y => a.headI - y))
  else if b.length = 1 then some (a.map (fun x => x - b.headI))
  else none

/-- The per-run table `df_runs` of the aggregator: the `(nlambdas, nrun)`
groups of `df` in first-occurrence order, each paired with the positional
difference of the done-time aggregate of the selected completion records
and the submit-time aggregate of `df`; `none` models the polars shape
error when the two aggregate columns cannot be aligned. -/
def dfRuns (df : List Record) : Option (List ((Nat × Nat) × Int)) :=
  let keys := firstOcc (df.map recKey)
  let submit := minSubmitByKey df
  let done := maxDoneByKey (selectCompletion df)
  match seriesSub done submit with
  | none => none
  | some times =>
    if times.length = keys.length then some (keys.zip times) else none

/-- Distinct `nlambdas` values in ascending order, as produced by
`group_by(['nlambdas'])` followed by `.sort(pl.col('nlambdas'))`. -/
def sortNl (l : List Nat) : List Nat :=
  List.insertionSort (fun a b => a ≤ b) l.dedup

/-- Arithmetic mean of a series of rationals. -/
def listMeanQ (l : List Rat) : Rat := l.sum / (l.length : Rat)

/-- The final aggregation: group the per-run times by `nlambdas`, take
the mean, and sort ascending by `nlambdas`. -/
def groupMeansSort (runs : List ((Nat × Nat) × Int)) : List (Nat × Rat) :=
  (sortNl (runs.map (fun x => x.1.1))).map
    (fun nl => (nl, listMeanQ ((runs.filter (fun x => x.1.1 = nl)).map
      (fun x => (x.2 : Rat)))))

/-- The aggregator `compute_mean_runtime_per_nlambdas(df)`. -/
def compute_mean_runtime_per_nlambdas (df : List Record) :
    Option (List (Nat × Rat)) :=
  (dfRuns df).map groupMeansSort

/-- The record built from one JSON line of a file enumerated as `i`
below a matched entry named `nm` (`is_worker` starts out true); used to
state what the loader produces. -/
def lineRecord (nm : String) (i : Nat) (l : RawRecord) : Record :=
  { host_submit_tstamp := l.host_submit_tstamp,
    host_result_done_tstamp := l.host_result_done_tstamp,
    nlambdas := (pyIntParse nm).getD 0, nrun := i, is_worker := true }

/-- The records one file contributes: its lines as worker records, the
last one reflagged as reducer under map-reduce. -/
def fileBlock (nm : String) (mr : Bool) (i : Nat) (t : FSTree) : List Record :=
  let block := t.linesOf.map (lineRecord nm i)
  if mr then setLastFalse block else block

/-- The records one matched entry contributes: nothing when its name is
forbidden, otherwise the blocks of its enumerated output files. -/
def dirRecords (mr : Bool) (forbidden : List String) (p : FSTree) :
    List Record :=
  if p.fsname ∈ forbidden then []
  else (((glob p isOutputJsonl).enum).map
    (fun x => fileBlock p.fsname mr x.1 x.2)).flatten

/-- The dataset a successful load produces, matched entry by matched
entry. -/
def expectedOutput (root : FSTree) (forbidden : List String) (mr : Bool) :
    List Record :=
  ((glob root startsWithDigit).map (dirRecords mr forbidden)).flatten

/-- Number of JSON lines an entry holds (zero for a directory). -/
def fileLineCount (t : FSTree) : Nat := t.linesOf.length

/-- Total number of JSON lines over the output files below one matched
entry. -/
def dirLineCount (p : FSTree) : Nat :=
  ((glob p isOutputJsonl).map fileLineCount).sum

/-- Total number of JSON lines over all output files below all matched,
non-forbidden entries (counting a file once per matched entry above
it). -/
def expectedTotal (root : FSTree) (forbidden : List String) : Nat :=
  (((glob root startsWithDigit).filter
    (fun p => p.fsname ∉ forbidden)).map dirLineCount).sum

/-- The accumulated dataset ends with a reducer record (vacuous when
empty). -/
def lastFalse (l : List Record) : Prop :=
  ∀ r, l.getLast? = some r → r.is_worker = false

/-- The elapsed time the specification claims for one `(nlambdas, nrun)`
partition: maximum done-timestamp over the selected completion records
of the partition minus minimum submit-timestamp over all records of the
partition. -/
def claimedElapsed (df : List Record) (k : Nat × Nat) : Int :=
  listMax (((selectCompletion df).filter (fun r => recKey r = k)).map
      (fun r => r.host_result_done_tstamp))
    - listMin ((df.filter (fun r => recKey r = k)).map
      (fun r => r.host_submit_tstamp))

lemma readLines_ok (nm : String) (i : Nat) :
    ∀ (ls : List RawRecord) (full full1 : List Record),
      readLines nm i ls full = .ok full1 →
      full1 = full ++ ls.map (lineRecord nm i) := by
  intro ls
  induction ls with
  | nil =>
    intro full full1 h
    simp [readLines] at h
    simp [h]
  | cons l ls ih =>
    intro full full1 h
    cases hp : pyIntParse nm with
    | none => simp [readLines, hp] at h
    | some nl =>
      simp only [readLines, hp] at h
      have := ih _ _ h
      simp [this, lineRecord, hp]

lemma readLines_parse (nm : String) (i : Nat) (l : RawRecord)
    (ls : List RawRecord) (full full1 : List Record)
    (h : readLines nm i (l :: ls) full = .ok full1) :
    pyIntParse nm = some ((pyIntParse nm).getD 0) := by
  cases hp : pyIntParse nm with
  | none => simp [readLines, hp] at h
  | some nl => simp [hp]

lemma setLastFalse_ne_nil (l : List Record) (h : l ≠ []) :
    setLastFalse l ≠ [] := by
  match l with
  | [r] => simp [setLastFalse]
  | r :: s :: rs => simp [setLastFalse]

lemma setLastFalse_concat (l : List Record) (r : Record) :
    setLastFalse (l ++ [r]) = l ++ [{ r with is_worker := false }] := by
  induction l with
  | nil => rfl
  | cons a l ih =>
    cases l with
    | nil => rfl
    | cons b l => simpa [setLastFalse] using ih

lemma setLastFalse_append (l1 l2 : List Record) (h : l2 ≠ []) :
    setLastFalse (l1 ++ l2) = l1 ++ setLastFalse l2 := by
  induction l1 with
  | nil => rfl
  | cons a l1 ih =>
    match hl : l1 ++ l2, (by simp [h] : l1 ++ l2 ≠ []) with
    | b :: t, _ =>
      calc setLastFalse (a :: l1 ++ l2) = a :: setLastFalse (l1 ++ l2) := by
            rw [List.cons_append, hl, setLastFalse]
        _ = a :: (l1 ++ setLastFalse l2) := by rw [ih]
        _ = (a :: l1) ++ setLastFalse l2 := rfl

lemma setLastFalse_of_lastFalse (l : List Record) (h : lastFalse l) :
    setLastFalse l = l := by
  induction l with
  | nil => rfl
  | cons a l ih =>
    cases l with
    | nil =>
      have ha : a.is_worker = false := h a (by simp)
      cases a
      simp_all [setLastFalse]
    | cons b t =>
      have hbt : lastFalse (b :: t) := by
        intro r hr
        exact h r (by rw [List.getLast?_cons_cons]; exact hr)
      rw [setLastFalse, ih hbt]

lemma lastFalse_setLastFalse (l : List Record) (h : l ≠ []) :
    lastFalse (setLastFalse l) := by
  induction l with
  | nil => exact absurd rfl h
  | cons a l ih =>
    cases l with
    | nil =>
      intro r hr
      simp [setLastFalse] at hr
      simp [← hr]
    | cons b t =>
      intro r hr
      rw [setLastFalse] at hr
      have hne : setLastFalse (b :: t) ≠ [] := setLastFalse_ne_nil _ (by simp)
      rw [show a :: setLastFalse (b :: t) = [a] ++ setLastFalse (b :: t) from rfl,
        List.getLast?_append_of_ne_nil [a] hne] at hr
      exact ih (by simp) r hr

lemma lastFalse_append (l1 l2 : List Record) (h1 : lastFalse l1)
    (h2 : lastFalse l2) : lastFalse (l1 ++ l2) := by
  cases hl : l2 with
  | nil =>
    subst hl
    simpa using h1
  | cons b t =>
    subst hl
    intro r hr
    apply h2 r
    rwa [List.getLast?_append_of_ne_nil l1 (by simp)] at hr

lemma setLastFalse_length (l : List Record) :
    (setLastFalse l).length = l.length := by
  induction l with
  | nil => rfl
  | cons a l ih =>
    cases l with
    | nil => rfl
    | cons b t => simpa [setLastFalse] using ih

lemma lastFalse_fileBlock (nm : String) (i : Nat) (t : FSTree) :
    lastFalse (fileBlock nm true i t) := by
  unfold fileBlock
  cases hl : t.linesOf with
  | nil =>
    intro r hr
    simp [setLastFalse] at hr
  | cons l ls =>
    simp only [if_pos rfl]
    exact lastFalse_setLastFalse _ (by simp [hl])

lemma processFiles_ok (nm : String) (mr : Bool) :
    ∀ (files : List (Nat × FSTree)) (full full1 : List Record),
      processFiles nm mr files full = .ok full1 →
      (mr = true → lastFalse full) →
      full1 = full ++ (files.map (fun x => fileBlock nm mr x.1 x.2)).flatten ∧
        (mr = true → lastFalse full1) := by
  intro files
  induction files with
  | nil =>
    intro full full1 h hinv
    simp [processFiles] at h
    exact ⟨by simp [h], fun hm => by rw [← h]; exact hinv hm⟩
  | cons x rest ih =>
    intro full full1 h hinv
    obtain ⟨i, t⟩ := x
    cases t with
    | dir d cs => simp [processFiles] at h
    | file f ls =>
      rw [processFiles] at h
      cases hr : readLines nm i ls full with
      | error e => rw [hr] at h; exact absurd h (by simp)
      | ok fullA =>
        rw [hr] at h
        dsimp only at h
        have hA : fullA = full ++ ls.map (lineRecord nm i) :=
          readLines_ok nm i ls full fullA hr
        cases mr with
        | false =>
          rw [if_neg (by decide)] at h
          obtain ⟨he, hl⟩ := ih _ _ h (by simp)
          refine ⟨?_, by simp⟩
          rw [he, hA]
          simp [fileBlock, FSTree.linesOf, List.append_assoc]
        | true =>
          rw [if_pos rfl] at h
          cases hful : fullA with
          | nil => rw [hful] at h; exact absurd h (by simp)
          | cons r0 rs =>
            rw [hful] at h
            dsimp only at h
            rw [← hful] at h
            have hinv2 : true = true → lastFalse (setLastFalse fullA) := by
              intro _
              cases hls : ls with
              | nil =>
                have hAf : fullA = full := by rw [hA, hls]; simp
                rw [hAf, setLastFalse_of_lastFalse full (hinv rfl)]
                exact hinv rfl
              | cons l0 ls0 =>
                exact lastFalse_setLastFalse fullA (by simp [hful])
            obtain ⟨he, hl⟩ := ih _ _ h hinv2
            refine ⟨?_, hl⟩
            rw [he]
            cases hls : ls with
            | nil =>
              have hAf : fullA = full := by rw [hA, hls]; simp
              rw [hAf, setLastFalse_of_lastFalse full (hinv rfl)]
              simp [fileBlock, FSTree.linesOf, hls, setLastFalse]
            | cons l0 ls0 =>
              rw [hA, hls, setLastFalse_append full _ (by simp)]
              simp [fileBlock, FSTree.linesOf, hls, List.append_assoc]

lemma processPaths_ok (forbidden : List String) (mr : Bool) :
    ∀ (ps : List FSTree) (full full1 : List Record),
      processPaths forbidden mr ps full = .ok full1 →
      (mr = true → lastFalse full) →
      full1 = full ++ (ps.map (dirRecords mr forbidden)).flatten ∧
        (mr = true → lastFalse full1) := by
  intro ps
  induction ps with
  | nil =>
    intro full full1 h hinv
    simp [processPaths] at h
    exact ⟨by simp [h], fun hm => by rw [← h]; exact hinv hm⟩
  | cons p ps ih =>
    intro full full1 h hinv
    rw [processPaths] at h
    by_cases hf : p.fsname ∈ forbidden
    · rw [if_pos hf] at h
      obtain ⟨he, hl⟩ := ih _ _ h hinv
      exact ⟨by simp [he, dirRecords, hf], hl⟩
    · rw [if_neg hf] at h
      cases hpf : processFiles p.fsname mr ((glob p isOutputJsonl).enum) full with
      | error e => rw [hpf] at h; exact absurd h (by simp)
      | ok fullA =>
        rw [hpf] at h
        obtain ⟨heA, hlA⟩ := processFiles_ok p.fsname mr _ full fullA hpf hinv
        obtain ⟨he, hl⟩ := ih _ _ h hlA
        refine ⟨?_, hl⟩
        rw [he, heA]
        simp [dirRecords, hf, List.append_assoc]

/-- Refinement: a successful load equals the per-entry, per-file block
decomposition `expectedOutput`. -/
lemma data_input_expected (root : FSTree) (forbidden : List String)
    (mr : Bool) (full : List Record)
    (h : data_input root forbidden mr = .ok full) :
    full = expectedOutput root forbidden mr := by
  have := processPaths_ok forbidden mr (glob root startsWithDigit) [] full h
    (by intro _ r hr; simp at hr)
  simpa [expectedOutput] using this.1

lemma readLines_mem (nm : String) (i : Nat) (ls : List RawRecord)
    (full full1 : List Record) (h : readLines nm i ls full = .ok full1) :
    ∀ r ∈ full1, (∃ s ∈ full, r.nlambdas = s.nlambdas) ∨
      pyIntParse nm = some r.nlambdas := by
  intro r hr
  rw [readLines_ok nm i ls full full1 h] at hr
  rcases List.mem_append.mp hr with hl | hm
  · exact Or.inl ⟨r, hl, rfl⟩
  · right
    obtain ⟨l, hlmem, rfl⟩ := List.mem_map.mp hm
    cases ls with
    | nil => simp at hlmem
    | cons l0 ls0 =>
      have := readLines_parse nm i l0 ls0 full full1 h
      simpa [lineRecord] using this

lemma setLastFalse_mem (l : List Record) :
    ∀ r ∈ setLastFalse l, ∃ s ∈ l, r.nlambdas = s.nlambdas := by
  induction l with
  | nil => simp [setLastFalse]
  | cons a l ih =>
    cases l with
    | nil =>
      intro r hr
      simp [setLastFalse] at hr
      exact ⟨a, by simp, by simp [hr]⟩
    | cons b t =>
      intro r hr
      rw [setLastFalse] at hr
      rcases List.mem_cons.mp hr with rfl | hr2
      · exact ⟨r, by simp, rfl⟩
      · obtain ⟨s, hs, he⟩ := ih r hr2
        exact ⟨s, List.mem_cons_of_mem a hs, he⟩

lemma processFiles_mem (nm : String) (mr : Bool) :
    ∀ (files : List (Nat × FSTree)) (full full1 : List Record),
      processFiles nm mr files full = .ok full1 →
      ∀ r ∈ full1, (∃ s ∈ full, r.nlambdas = s.nlambdas) ∨
        pyIntParse nm = some r.nlambdas := by
  intro files
  induction files with
  | nil =>
    intro full full1 h r hr
    simp [processFiles] at h
    exact Or.inl ⟨r, h ▸ hr, rfl⟩
  | cons x rest ih =>
    intro full full1 h r hr
    obtain ⟨i, t⟩ := x
    cases t with
    | dir d cs => simp [processFiles] at h
    | file f ls =>
      rw [processFiles] at h
      cases hrl : readLines nm i ls full with
      | error e => rw [hrl] at h; exact absurd h (by simp)
      | ok fullA =>
        rw [hrl] at h
        dsimp only at h
        cases mr with
        | false =>
          rw [if_neg (by decide)] at h
          rcases ih _ _ h r hr with ⟨s, hs, he⟩ | hp
          · rcases readLines_mem nm i ls full fullA hrl s hs with ⟨u, hu, he2⟩ | hp2
            · exact Or.inl ⟨u, hu, he.trans he2⟩
            · exact Or.inr (by rw [hp2, he])
          · exact Or.inr hp
        | true =>
          rw [if_pos rfl] at h
          cases hful : fullA with
          | nil => rw [hful] at h; exact absurd h (by simp)
          | cons r0 rs =>
            rw [hful] at h
            dsimp only at h
            rw [← hful] at h
            rcases ih _ _ h r hr with ⟨s, hs, he⟩ | hp
            · obtain ⟨s2, hs2, he2⟩ := setLastFalse_mem fullA s hs
              rcases readLines_mem nm i ls full fullA hrl s2 hs2 with ⟨u, hu, he3⟩ | hp2
              · exact Or.inl ⟨u, hu, (he.trans he2).trans he3⟩
              · exact Or.inr (by rw [hp2, he, he2])
            · exact Or.inr hp

lemma processPaths_mem (forbidden : List String) (mr : Bool) :
    ∀ (ps : List FSTree) (full full1 : List Record),
      processPaths forbidden mr ps full = .ok full1 →
      ∀ r ∈ full1, (∃ s ∈ full, r.nlambdas = s.nlambdas) ∨
        ∃ p ∈ ps, p.fsname ∉ forbidden ∧
          pyIntParse p.fsname = some r.nlambdas := by
  intro ps
  induction ps with
  | nil =>
    intro full full1 h r hr
    simp [processPaths] at h
    exact Or.inl ⟨r, h ▸ hr, rfl⟩
  | cons p ps ih =>
    intro full full1 h r hr
    rw [processPaths] at h
    by_cases hf : p.fsname ∈ forbidden
    · rw [if_pos hf] at h
      rcases ih _ _ h r hr with hl | ⟨q, hq, hnf, hp⟩
      · exact Or.inl hl
      · exact Or.inr ⟨q, List.mem_cons_of_mem p hq, hnf, hp⟩
    · rw [if_neg hf] at h
      cases hpf : processFiles p.fsname mr ((glob p isOutputJsonl).enum) full with
      | error e => rw [hpf] at h; exact absurd h (by simp)
      | ok fullA =>
        rw [hpf] at h
        rcases ih _ _ h r hr with ⟨s, hs, he⟩ | ⟨q, hq, hnf, hp⟩
        · rcases processFiles_mem p.fsname mr _ full fullA hpf s hs with
            ⟨u, hu, he2⟩ | hp2
          · exact Or.inl ⟨u, hu, he.trans he2⟩
          · exact Or.inr ⟨p, List.mem_cons_self p ps, hf, by rw [hp2, he]⟩
        · exact Or.inr ⟨q, List.mem_cons_of_mem p hq, hnf, hp⟩

/-- Provenance: every record of a successful load takes its `nlambdas`
from the Python-int parse of some matched, non-forbidden entry name. -/
lemma data_input_nlambdas (root : FSTree) (forbidden : List String)
    (mr : Bool) (full : List Record)
    (h : data_input root forbidden mr = .ok full) :
    ∀ r ∈ full, ∃ p ∈ glob root startsWithDigit, p.fsname ∉ forbidden ∧
      pyIntParse p.fsname = some r.nlambdas := by
  intro r hr
  rcases processPaths_mem forbidden mr (glob root startsWithDigit) [] full h r hr with
    ⟨s, hs, _⟩ | hp
  · simp at hs
  · exact hp

lemma fileBlock_length (nm : String) (mr : Bool) (i : Nat) (t : FSTree) :
    (fileBlock nm mr i t).length = fileLineCount t := by
  cases mr <;> simp [fileBlock, fileLineCount, setLastFalse_length]

lemma dirRecords_length (mr : Bool) (forbidden : List String) (p : FSTree) :
    (dirRecords mr forbidden p).length =
      if p.fsname ∈ forbidden then 0 else dirLineCount p := by
  by_cases hf : p.fsname ∈ forbidden
  · simp [dirRecords, hf]
  · simp only [dirRecords, if_neg hf, List.length_flatten, List.map_map]
    rw [dirLineCount]
    congr 1
    have he : ((glob p isOutputJsonl).enum).map Prod.snd = glob p isOutputJsonl :=
      List.enum_map_snd _
    calc ((glob p isOutputJsonl).enum).map
          (List.length ∘ fun x => fileBlock p.fsname mr x.1 x.2)
        = ((glob p isOutputJsonl).enum).map (fun x => fileLineCount x.2) := by
          apply List.map_congr_left
          intro x _
          exact fileBlock_length p.fsname mr x.1 x.2
      _ = (((glob p isOutputJsonl).enum).map Prod.snd).map fileLineCount := by
          rw [List.map_map]
          rfl
      _ = (glob p isOutputJsonl).map fileLineCount := by rw [he]

lemma expectedOutput_length (root : FSTree) (forbidden : List String)
    (mr : Bool) :
    (expectedOutput root forbidden mr).length = expectedTotal root forbidden := by
  rw [expectedOutput, expectedTotal]
  induction glob root startsWithDigit with
  | nil => rfl
  | cons p ps ih =>
    by_cases hf : p.fsname ∈ forbidden
    · simpa [dirRecords_length, hf] using ih
    · simpa [dirRecords_length, hf] using congrArg (dirLineCount p + ·) ih

lemma firstOcc_mem (k : Nat × Nat) :
    ∀ l : List (Nat × Nat), k ∈ firstOcc l ↔ k ∈ l := by
  intro l
  induction l with
  | nil => simp [firstOcc]
  | cons a l ih =>
    simp only [firstOcc, List.mem_cons, List.mem_filter, ih,
      decide_eq_true_eq]
    constructor
    · rintro (rfl | ⟨hk, _⟩)
      · exact Or.inl rfl
      · exact Or.inr hk
    · rintro (rfl | hk)
      · exact Or.inl rfl
      · by_cases hek : k = a
        · exact Or.inl hek
        · exact Or.inr ⟨hk, hek⟩

lemma zipWith_sub_map {α : Type} (f g : α → Int) :
    ∀ l : List α,
      List.zipWith (fun x y => x - y) (l.map f) (l.map g)
        = l.map (fun x => f x - g x) := by
  intro l
  induction l with
  | nil => rfl
  | cons a l ih => simp [ih]

lemma zip_map_self {α β : Type} (g : α → β) :
    ∀ l : List α, l.zip (l.map g) = l.map (fun x => (x, g x)) := by
  intro l
  induction l with
  | nil => rfl
  | cons a l ih => simp [ih]

/-- When the first-occurrence group order of the selected completion
records agrees with that of the whole dataset, the positional column
subtraction lands on the partition the specification intends. -/
lemma dfRuns_aligned (df : List Record)
    (ho : firstOcc ((selectCompletion df).map recKey)
      = firstOcc (df.map recKey)) :
    dfRuns df = some ((firstOcc (df.map recKey)).map
      (fun k => (k, claimedElapsed df k))) := by
  have h1 : maxDoneByKey (selectCompletion df)
      = (firstOcc (df.map recKey)).map
        (fun k => listMax (((selectCompletion df).filter
          (fun r => recKey r = k)).map (fun r => r.host_result_done_tstamp))) := by
    rw [maxDoneByKey, ho]
  have h3 : seriesSub
      ((firstOcc (df.map recKey)).map
        (fun k => listMax (((selectCompletion df).filter
          (fun r => recKey r = k)).map (fun r => r.host_result_done_tstamp))))
      (minSubmitByKey df)
      = some ((firstOcc (df.map recKey)).map (fun k => claimedElapsed df k)) := by
    rw [minSubmitByKey, seriesSub, if_pos (by simp), zipWith_sub_map]
    simp only [claimedElapsed]
  simp only [dfRuns]
  rw [h1, h3]
  dsimp only
  rw [if_pos (by simp), zip_map_self]

lemma dfRuns_keys (df : List Record) (runs : List ((Nat × Nat) × Int))
    (h : dfRuns df = some runs) :
    runs.map Prod.fst = firstOcc (df.map recKey) := by
  simp only [dfRuns] at h
  cases hs : seriesSub (maxDoneByKey (selectCompletion df)) (minSubmitByKey df) with
  | none => rw [hs] at h; simp at h
  | some times =>
    rw [hs] at h
    dsimp only at h
    by_cases hl : times.length = (firstOcc (df.map recKey)).length
    · rw [if_pos hl] at h
      have hz : runs = (firstOcc (df.map recKey)).zip times := by
        cases h
        rfl
      rw [hz]
      exact List.map_fst_zip _ _ (le_of_eq hl.symm)
    · rw [if_neg hl] at h
      simp at h

lemma sortNl_sorted (l : List Nat) :
    List.Sorted (fun a b => a ≤ b) (sortNl l) :=
  List.sorted_insertionSort _ _

lemma sortNl_nodup (l : List Nat) : (sortNl l).Nodup :=
  (List.perm_insertionSort _ _).nodup_iff.mpr (List.nodup_dedup l)

lemma sortNl_mem (n : Nat) (l : List Nat) : n ∈ sortNl l ↔ n ∈ l := by
  rw [sortNl, (List.perm_insertionSort _ _).mem_iff, List.mem_dedup]

lemma sortNl_sorted_lt (l : List Nat) :
    List.Sorted (fun a b => a < b) (sortNl l) :=
  List.Sorted.lt_of_le (sortNl_sorted l) (sortNl_nodup l)

/-- C1: the loader is claimed never to fail on an empty `output-*.jsonl`
file, in particular when it is the first file processed; but on a root
whose single numeric directory holds one empty output file, with
map-reduce enabled (the default), `full[-1]['is_worker'] = False` runs
on an empty accumulator and the loader raises `IndexError` instead of
succeeding with zero records. -/
theorem c1_empty_first_file_index_error :
    data_input (.dir "r" [.dir "2" [.file "output-0.jsonl" []]]) [] true
      = .error .indexError := rfl

/-- C2, counterexample: a one-line file below nested numeric directories
`2/3/` is discovered under both, so the loader returns two records while
the tree holds a single JSON line — a line can be counted more than
once. -/
theorem c2_counterexample :
    data_input
        (.dir "r" [.dir "2" [.dir "3" [.file "output-0.jsonl" [⟨0, 10⟩]]]])
        [] true
      = .ok [⟨0, 10, 2, 0, false⟩, ⟨0, 10, 3, 0, false⟩] ∧
    ((glob (.dir "r" [.dir "2" [.dir "3" [.file "output-0.jsonl" [⟨0, 10⟩]]]])
        isOutputJsonl).map fileLineCount).sum = 1 :=
  ⟨rfl, rfl⟩

/-- C2, amended: for every root, exclusion set and map-reduce flag, a
successful load has exactly as many records as the total of JSON lines
summed over the matched, non-forbidden entries — where an output file
below several nested matched directories is counted once per such
directory. -/
theorem c2_record_count (root : FSTree) (forbidden : List String)
    (mr : Bool) (full : List Record)
    (h : data_input root forbidden mr = .ok full) :
    full.length = expectedTotal root forbidden := by
  rw [data_input_expected root forbidden mr full h, expectedOutput_length]

/-- Witness for C2 at a concrete one-directory, one-line tree. -/
theorem c2_record_count_witness :
    ∃ full,
      data_input (.dir "r" [.dir "2" [.file "output-0.jsonl" [⟨0, 10⟩]]]) [] true
          = .ok full ∧
        full.length
          = expectedTotal (.dir "r" [.dir "2" [.file "output-0.jsonl" [⟨0, 10⟩]]]) [] :=
  ⟨[⟨0, 10, 2, 0, false⟩], rfl, c2_record_count _ [] true _ rfl⟩

/-- C3, counterexample: a directory `2x/` merely starts with a digit, yet
the glob `[0-9]*` matches it, its file is read and `int("2x")` raises
`ValueError` — the directory is processed and does cause an error. -/
theorem c3_counterexample :
    data_input (.dir "r" [.dir "2x" [.file "output-0.jsonl" [⟨0, 10⟩]]]) [] true
      = .error (.valueError "2x") := rfl

/-- C3, amended: every record of a successful load takes its `nlambdas`
from the successful Python-int parse of the name of some matched (digit-
leading), non-forbidden entry; in particular `nlambdas` is a non-negative
integer parsed from a directory name. -/
theorem c3_nlambdas_provenance (root : FSTree) (forbidden : List String)
    (mr : Bool) (full : List Record)
    (h : data_input root forbidden mr = .ok full) :
    ∀ r ∈ full, ∃ p ∈ glob root startsWithDigit,
      p.fsname ∉ forbidden ∧ pyIntParse p.fsname = some r.nlambdas := by
  intro r hr
  rcases processPaths_mem forbidden mr (glob root startsWithDigit) [] full h r hr
    with ⟨s, hs, _⟩ | hp
  · simp at hs
  · exact hp

/-- Witness for C3 at a concrete one-directory, one-line tree. -/
theorem c3_nlambdas_provenance_witness :
    ∃ full,
      data_input (.dir "r" [.dir "7" [.file "output-0.jsonl" [⟨1, 2⟩]]]) [] true
          = .ok full ∧
        ∀ r ∈ full,
          ∃ p ∈ glob (.dir "r" [.dir "7" [.file "output-0.jsonl" [⟨1, 2⟩]]])
              startsWithDigit,
            p.fsname ∉ ([] : List String) ∧
              pyIntParse p.fsname = some r.nlambdas :=
  ⟨[⟨1, 2, 7, 0, false⟩], rfl, c3_nlambdas_provenance _ [] true _ rfl⟩

/-- C4, counterexample: with `5/` excluded, the one-line file at
`5/3/output-0.jsonl` is still loaded (as `nlambdas = 3`) because the
nested numeric directory `3/` is matched on its own — an excluded
directory does not keep files below it out of the dataset. -/
theorem c4_counterexample :
    data_input
        (.dir "r" [.dir "5" [.dir "3" [.file "output-0.jsonl" [⟨0, 10⟩]]]])
        ["5"] true
      = .ok [⟨0, 10, 3, 0, false⟩] := rfl

/-- C4, amended: the loop body skips an entry whose name is in the
exclusion set entirely, so the entry itself contributes no records; files
below it can enter only through a nested matched directory of its own. -/
theorem c4_forbidden_skip (forbidden : List String) (mr : Bool)
    (p : FSTree) (ps : List FSTree) (full : List Record)
    (h : p.fsname ∈ forbidden) :
    processPaths forbidden mr (p :: ps) full
      = processPaths forbidden mr ps full := by
  rw [processPaths, if_pos h]

/-- Witness for C4 at a concrete forbidden directory. -/
theorem c4_forbidden_skip_witness :
    FSTree.fsname (.dir "5" []) ∈ ["5"] ∧
      processPaths ["5"] true [.dir "5" []] []
        = processPaths ["5"] true [] [] :=
  ⟨by decide, c4_forbidden_skip ["5"] true _ [] [] (by decide)⟩

/-- C5: under map-reduce, a successful load decomposes into the
per-entry, per-file blocks, and the block of every file with at least one
line maps the leading lines to worker records and the last line to the
single record with `is_worker = false`. -/
theorem c5_last_record_reducer (root : FSTree) (forbidden : List String)
    (full : List Record) (h : data_input root forbidden true = .ok full) :
    full = expectedOutput root forbidden true ∧
      ∀ (nm f : String) (i : Nat) (ls0 : List RawRecord) (l : RawRecord),
        fileBlock nm true i (.file f (ls0 ++ [l]))
            = ls0.map (lineRecord nm i)
              ++ [{ lineRecord nm i l with is_worker := false }] ∧
          ((ls0.map (lineRecord nm i)
              ++ [{ lineRecord nm i l with is_worker := false }]).filter
            (fun r : Record => r.is_worker = false)).length = 1 := by
  refine ⟨data_input_expected root forbidden true full h, ?_⟩
  intro nm f i ls0 l
  constructor
  · rw [fileBlock]
    simp only [FSTree.linesOf, if_pos rfl, List.map_append, List.map_cons,
      List.map_nil]
    exact setLastFalse_concat _ _
  · have hnil : (ls0.map (lineRecord nm i)).filter
        (fun r => decide (r.is_worker = false)) = [] := by
      rw [List.filter_eq_nil_iff]
      intro r hr
      obtain ⟨l2, _, rfl⟩ := List.mem_map.mp hr
      simp [lineRecord]
    rw [List.filter_append, hnil]
    simp [lineRecord]

/-- Witness for C5 at a concrete two-line file. -/
theorem c5_last_record_reducer_witness :
    ∃ full,
      data_input (.dir "r" [.dir "4" [.file "output-0.jsonl" [⟨0, 1⟩, ⟨2, 3⟩]]])
          [] true = .ok full ∧
        full = expectedOutput
          (.dir "r" [.dir "4" [.file "output-0.jsonl" [⟨0, 1⟩, ⟨2, 3⟩]]]) [] true :=
  ⟨[⟨0, 1, 4, 0, true⟩, ⟨2, 3, 4, 0, false⟩], rfl,
    (c5_last_record_reducer
      (.dir "r" [.dir "4" [.file "output-0.jsonl" [⟨0, 1⟩, ⟨2, 3⟩]]]) []
      [⟨0, 1, 4, 0, true⟩, ⟨2, 3, 4, 0, false⟩] rfl).1⟩

/-- C6: the aggregator's completion records are exactly the
`is_worker = false` rows when at least one exists anywhere in the
dataset, and the whole dataset otherwise. -/
theorem c6_completion_selection (df : List Record) :
    ((∃ r ∈ df, r.is_worker = false) →
      selectCompletion df = df.filter (fun r => r.is_worker = false)) ∧
    ((∀ r ∈ df, r.is_worker = true) → selectCompletion df = df) := by
  constructor
  · rintro ⟨r, hr, hw⟩
    have hne : df.filter (fun r => decide (r.is_worker = false)) ≠ [] :=
      List.ne_nil_of_mem (List.mem_filter.mpr ⟨hr, by simp [hw]⟩)
    simp only [selectCompletion]
    rw [if_neg (by simpa using hne)]
  · intro hall
    simp only [selectCompletion]
    rw [if_pos]
    simp only [List.isEmpty_iff, List.filter_eq_nil_iff]
    intro r hr
    simp [hall r hr]

/-- Witness for C6: one dataset with a reducer row and one without. -/
theorem c6_completion_selection_witness :
    selectCompletion [⟨0, 1, 1, 0, true⟩, ⟨0, 2, 1, 0, false⟩]
        = [⟨0, 2, 1, 0, false⟩] ∧
      selectCompletion [⟨0, 1, 1, 0, true⟩] = [⟨0, 1, 1, 0, true⟩] :=
  ⟨((c6_completion_selection _).1
      ⟨⟨0, 2, 1, 0, false⟩, by simp, rfl⟩).trans (by decide),
    (c6_completion_selection _).2 (by decide)⟩

/-- C7, counterexample: in a dataset whose `(nlambdas, nrun)` groups
first occur in a different order among the reducer rows than among all
rows, the positional subtraction pairs the partitions crosswise: the run
`(1, 0)` gets elapsed time `100` in the output although the claimed
formula for that partition gives `10`. -/
theorem c7_counterexample :
    compute_mean_runtime_per_nlambdas
        [⟨0, 5, 1, 0, true⟩, ⟨0, 100, 2, 0, false⟩, ⟨0, 10, 1, 0, false⟩]
        = some [(1, (100 : Rat)), (2, (10 : Rat))] ∧
      claimedElapsed
        [⟨0, 5, 1, 0, true⟩, ⟨0, 100, 2, 0, false⟩, ⟨0, 10, 1, 0, false⟩]
        (1, 0) = 10 ∧
      claimedElapsed
        [⟨0, 5, 1, 0, true⟩, ⟨0, 100, 2, 0, false⟩, ⟨0, 10, 1, 0, false⟩]
        (2, 0) = 100 ∧
      (100 : Rat) ≠ 10 := by
  refine ⟨?_, by decide, by decide, by norm_num⟩
  simp [compute_mean_runtime_per_nlambdas, dfRuns, minSubmitByKey, maxDoneByKey,
    selectCompletion, firstOcc, recKey, seriesSub, groupMeansSort, sortNl,
    listMeanQ, listMin, listMax, List.insertionSort, List.orderedInsert,
    List.dedup]

/-- C7, amended: whenever the first-occurrence order of the
`(nlambdas, nrun)` groups among the selected completion records equals
their order in the whole dataset, every run's elapsed time equals the
claimed maximum-done minus minimum-submit of its own partition; and the
specification's scenario (submit times 0 and 1, reducer done-time 20 in
directory `2/`) yields elapsed time 20. -/
theorem c7_elapsed_aligned :
    (∀ df : List Record,
      firstOcc ((selectCompletion df).map recKey) = firstOcc (df.map recKey) →
      dfRuns df = some ((firstOcc (df.map recKey)).map
        (fun k => (k, claimedElapsed df k)))) ∧
    (data_input (.dir "r" [.dir "2" [.file "output-0.jsonl" [⟨0, 5⟩, ⟨1, 20⟩]]])
        [] true = .ok [⟨0, 5, 2, 0, true⟩, ⟨1, 20, 2, 0, false⟩] ∧
      compute_mean_runtime_per_nlambdas
        [⟨0, 5, 2, 0, true⟩, ⟨1, 20, 2, 0, false⟩] = some [(2, (20 : Rat))]) := by
  refine ⟨fun df ho => dfRuns_aligned df ho, rfl, ?_⟩
  simp [compute_mean_runtime_per_nlambdas, dfRuns, minSubmitByKey, maxDoneByKey,
    selectCompletion, firstOcc, recKey, seriesSub, groupMeansSort, sortNl,
    listMeanQ, listMin, listMax, List.insertionSort, List.orderedInsert,
    List.dedup]

/-- Witness for C7 at a concrete aligned dataset. -/
theorem c7_elapsed_aligned_witness :
    firstOcc ((selectCompletion
          [⟨0, 5, 2, 0, true⟩, ⟨1, 20, 2, 0, false⟩]).map recKey)
        = firstOcc (([⟨0, 5, 2, 0, true⟩, ⟨1, 20, 2, 0, false⟩] :
            List Record).map recKey) ∧
      dfRuns [⟨0, 5, 2, 0, true⟩, ⟨1, 20, 2, 0, false⟩]
        = some ((firstOcc (([⟨0, 5, 2, 0, true⟩, ⟨1, 20, 2, 0, false⟩] :
            List Record).map recKey)).map
          (fun k => (k, claimedElapsed
            [⟨0, 5, 2, 0, true⟩, ⟨1, 20, 2, 0, false⟩] k))) :=
  ⟨by decide, c7_elapsed_aligned.1 _ (by decide)⟩

/-- C8: whenever the aggregator succeeds, its output lists strictly
increasing, duplicate-free `nlambdas` keys — exactly the `nlambdas`
values present in the input — and pairs each with the arithmetic mean of
the per-run elapsed times of that group. -/
theorem c8_output_shape (df : List Record)
    (runs : List ((Nat × Nat) × Int)) (h : dfRuns df = some runs) :
    ∃ out, compute_mean_runtime_per_nlambdas df = some out ∧
      List.Sorted (fun a b => a < b) (out.map Prod.fst) ∧
      (out.map Prod.fst).Nodup ∧
      (∀ nl, nl ∈ out.map Prod.fst ↔ ∃ r ∈ df, r.nlambdas = nl) ∧
      ∀ q ∈ out, q.2 = listMeanQ ((runs.filter
        (fun x => x.1.1 = q.1)).map (fun x => (x.2 : Rat))) := by
  have hfst : (groupMeansSort runs).map Prod.fst
      = sortNl (runs.map (fun x => x.1.1)) := by
    rw [groupMeansSort]
    generalize sortNl (runs.map (fun x => x.1.1)) = l
    induction l with
    | nil => rfl
    | cons a l ih => simpa using ih
  refine ⟨groupMeansSort runs, ?_, ?_, ?_, ?_, ?_⟩
  · rw [compute_mean_runtime_per_nlambdas, h]
    rfl
  · rw [hfst]
    exact sortNl_sorted_lt _
  · rw [hfst]
    exact sortNl_nodup _
  · intro nl
    rw [hfst, sortNl_mem]
    have hk : runs.map (fun x => x.1.1)
        = (firstOcc (df.map recKey)).map Prod.fst := by
      have := dfRuns_keys df runs h
      calc runs.map (fun x => x.1.1)
          = (runs.map Prod.fst).map Prod.fst := by rw [List.map_map]; rfl
        _ = (firstOcc (df.map recKey)).map Prod.fst := by rw [this]
    rw [hk]
    simp only [List.mem_map]
    constructor
    · rintro ⟨k, hk2, rfl⟩
      obtain ⟨r, hr, rfl⟩ := List.mem_map.mp ((firstOcc_mem k _).mp hk2)
      exact ⟨r, hr, rfl⟩
    · rintro ⟨r, hr, rfl⟩
      exact ⟨recKey r, (firstOcc_mem _ _).mpr (List.mem_map.mpr ⟨r, hr, rfl⟩), rfl⟩
  · intro q hq
    obtain ⟨nl, _, rfl⟩ := List.mem_map.mp hq
    rfl

/-- Witness for C8 at a concrete one-row dataset. -/
theorem c8_output_shape_witness :
    dfRuns [⟨0, 7, 3, 0, true⟩] = some [((3, 0), 7)] ∧
      ∃ out, compute_mean_runtime_per_nlambdas [⟨0, 7, 3, 0, true⟩] = some out ∧
        List.Sorted (fun a b => a < b) (out.map Prod.fst) ∧
        (out.map Prod.fst).Nodup ∧
        (∀ nl, nl ∈ out.map Prod.fst ↔
          ∃ r ∈ ([⟨0, 7, 3, 0, true⟩] : List Record), r.nlambdas = nl) ∧
        ∀ q ∈ out, q.2 = listMeanQ ((([((3, 0), 7)] :
          List ((Nat × Nat) × Int)).filter
            (fun x => x.1.1 = q.1)).map (fun x => (x.2 : Rat))) :=
  ⟨by decide, c8_output_shape _ [((3, 0), 7)] (by decide)⟩

/-- C9: the aggregator maps the empty dataset to the empty aggregate
without error. -/
theorem c9_empty_dataset :
    compute_mean_runtime_per_nlambdas ([] : List Record) = some [] := rfl

/-- C10: with map-reduce enabled, once at least one record has been
accumulated (necessarily ending with a reducer record), processing an
empty output file leaves the accumulated dataset unchanged: the
redundant `full[-1]` overwrite re-writes an `is_worker` flag that is
already false and adds nothing. -/
theorem c10_empty_file_frame (nm f : String) (i : Nat)
    (rest : List (Nat × FSTree)) (full : List Record)
    (hne : full ≠ []) (hlf : lastFalse full) :
    processFiles nm true ((i, .file f []) :: rest) full
      = processFiles nm true rest full := by
  rw [processFiles]
  dsimp only [readLines]
  rw [if_pos rfl]
  cases full with
  | nil => exact absurd rfl hne
  | cons r rs =>
    dsimp only
    rw [setLastFalse_of_lastFalse (r :: rs) hlf]

/-- Witness for C10 at a concrete accumulated record. -/
theorem c10_empty_file_frame_witness :
    ([⟨0, 1, 2, 0, false⟩] : List Record) ≠ [] ∧
      lastFalse [⟨0, 1, 2, 0, false⟩] ∧
      processFiles "2" true [(1, .file "output-1.jsonl" [])]
          [⟨0, 1, 2, 0, false⟩]
        = processFiles "2" true [] [⟨0, 1, 2, 0, false⟩] := by
  have hlf : lastFalse [(⟨0, 1, 2, 0, false⟩ : Record)] := by
    intro r hr
    simp at hr
    simp [← hr]
  exact ⟨by simp, hlf,
    c10_empty_file_frame "2" "output-1.jsonl" 1 [] _ (by simp) hlf⟩

end Analithops
